import Mathlib

/-!
Verification of the dice-games repository (Yahtzee / Farkle front-end).

The definitions below are a shallow embedding of the repository's core logic:

* `Farkle` namespace — `src/js/games/farkle/FarkleScoring.js` (pure scoring
  functions) and `src/js/games/farkle/FarkleGame.js` (turn state machine and
  match controller).
* `Dice` namespace — the `DiceEngine` class of
  `src/js/components/dice/DiceEngine.js`.
* `Yahtzee` namespace — `YahtzeeScoring.js`, `YahtzeeCategories.js` and the
  category-selection logic of `YahtzeeGame.js`.

JavaScript frequency objects (`countFrequency`) are represented by
`List.count`; iteration over `Object.values(freq)` is iteration over
`l.dedup`.  JS `Set`s of die indices are `Finset Nat`.  Randomness is passed
in as an explicit oracle.  `setTimeout` continuations that only finish a
transition (bust / hot-dice overlays) are inlined into the transition
function, since no player action can interleave with them.
-/

set_option maxHeartbeats 1000000

namespace Yatzee

namespace Farkle

/-- `TRIPLE_BASE` lookup table from `FarkleScoring.js` (three-of-a-kind base
scores; `0` for keys absent from the JS object, which are never read). -/
def tripleBase : Nat → Nat
  | 1 => 1000
  | 2 => 200
  | 3 => 300
  | 4 => 400
  | 5 => 500
  | 6 => 600
  | _ => 0

/-- `STRAIGHT_SCORE` constant. -/
def STRAIGHT_SCORE : Nat := 1000

/-- `THREE_PAIRS_SCORE` constant. -/
def THREE_PAIRS_SCORE : Nat := 1500

/-- `TWO_TRIPLETS_SCORE` constant. -/
def TWO_TRIPLETS_SCORE : Nat := 2500

/-- The straight test of `scoreSelection` / `isFarkle`:
`[1,2,3,4,5,6].every(v => freq[v] === 1)`. -/
def isStraight6 (l : List Nat) : Prop := ∀ v ∈ [1, 2, 3, 4, 5, 6], l.count v = 1

instance (l : List Nat) : Decidable (isStraight6 l) := by
  unfold isStraight6; infer_instance

/-- `Object.values(freq).filter(c => c === 2).length` — the number of distinct
die values appearing exactly twice. -/
def pairsCount (l : List Nat) : Nat := (l.dedup.filter fun v => l.count v == 2).length

/-- `Object.values(freq).filter(c => c === 3).length` — the number of distinct
die values appearing exactly three times. -/
def tripletsCount (l : List Nat) : Nat := (l.dedup.filter fun v => l.count v == 3).length

/-- The multiplier applied to `TRIPLE_BASE` by the 6/5/4/3-of-a-kind
`else if` ladder of `scoreSelection` for a face with `c` occurrences. -/
def multMult (c : Nat) : Nat :=
  if 6 ≤ c then 8 else if 5 ≤ c then 4 else if 4 ≤ c then 2 else if 3 ≤ c then 1 else 0

/-- How many dice of a face with `c` occurrences the same ladder consumes
(`remaining[val] -= 6/5/4/3`). -/
def multTaken (c : Nat) : Nat :=
  if 6 ≤ c then 6 else if 5 ≤ c then 5 else if 4 ≤ c then 4 else if 3 ≤ c then 3 else 0

/-- Dice of face `v` left over after the multiples ladder (`remaining[val]`
when the singles loop runs). -/
def leftoverCount (l : List Nat) (v : Nat) : Nat := l.count v - multTaken (l.count v)

/-- Total score contributed by the multiples loop of `scoreSelection`
(`val = 1..6`). -/
def multiplesScore (l : List Nat) : Nat :=
  ([1, 2, 3, 4, 5, 6].map fun v => tripleBase v * multMult (l.count v)).sum

/-- Total score contributed by the singles loop (`SINGLE_SCORES`: 1 → 100,
5 → 50, per leftover die). -/
def singlesScore (l : List Nat) : Nat :=
  100 * leftoverCount l 1 + 50 * leftoverCount l 5

/-- The singles loop returns `null` when a leftover die has a face with no
`SINGLE_SCORES` entry (faces 2, 3, 4, 6; out-of-range faces are skipped by
the `val = 1..6` loop bound, exactly as in the source). -/
def hasInvalidLeftover (l : List Nat) : Prop :=
  ∃ v ∈ [2, 3, 4, 6], 0 < leftoverCount l v

instance (l : List Nat) : Decidable (hasInvalidLeftover l) := by
  unfold hasInvalidLeftover; infer_instance

/-- `scoreSelection` from `FarkleScoring.js`: score of a selected group of
dice, `none` when the group contains dice that cannot jointly score.  The
per-face loops of the source are reassociated into per-face helper functions;
this preserves the result because faces do not interact outside the special
6-dice combos. -/
def scoreSelection (l : List Nat) : Option Nat :=
  if l.length = 0 then none
  else if l.length = 6 ∧ isStraight6 l then some STRAIGHT_SCORE
  else if l.length = 6 ∧ pairsCount l = 3 then some THREE_PAIRS_SCORE
  else if l.length = 6 ∧ tripletsCount l = 2 then some TWO_TRIPLETS_SCORE
  else if hasInvalidLeftover l then none
  else if 0 < multiplesScore l + singlesScore l then some (multiplesScore l + singlesScore l)
  else none

/-- `isFarkle` from `FarkleScoring.js`: no valid scoring combination exists in
the rolled dice. -/
def isFarkle (l : List Nat) : Bool :=
  if l.length = 0 then true
  else if 1 ∈ l ∨ 5 ∈ l then false
  else if ∃ v ∈ l.dedup, 3 ≤ l.count v then false
  else if l.length = 6 ∧ isStraight6 l then false
  else if l.length = 6 ∧ pairsCount l = 3 then false
  else true

/-- Result record of `detectStraightAttempt`. -/
structure StraightAttemptResult where
  possible : Bool
  missingValue : Option Nat
deriving DecidableEq

/-- `detectStraightAttempt` from `FarkleScoring.js`: with exactly 6 dice,
5 distinct in-range values and a duplicated value, report the missing face. -/
def detectStraightAttempt (l : List Nat) : StraightAttemptResult :=
  if l.length ≠ 6 then ⟨false, none⟩
  else if l.dedup.length ≠ 5 then ⟨false, none⟩
  else if ¬ (∀ v ∈ l.dedup, 1 ≤ v ∧ v ≤ 6) then ⟨false, none⟩
  else
    match [1, 2, 3, 4, 5, 6].find? fun v => l.count v == 0 with
    | some m => if ∃ v ∈ l.dedup, l.count v = 2 then ⟨true, some m⟩ else ⟨false, none⟩
    | none => ⟨false, none⟩

end Farkle

namespace Dice

/-- Mutable state of the `DiceEngine` class (`DiceEngine.js`).  The die count
`this.count` is the length of `values`; `sides` only feeds the random draw,
which is externalised into an oracle. -/
structure EngineState where
  values : List Nat
  held : List Bool
  rollsLeft : Nat
  hasRolled : Bool
  isRolling : Bool
deriving DecidableEq

/-- The record produced by `DiceEngine.getState()` (no `isRolling` field). -/
structure Snapshot where
  values : List Nat
  held : List Bool
  rollsLeft : Nat
  hasRolled : Bool
deriving DecidableEq

/-- `DiceEngine.getState()`. -/
def getState (e : EngineState) : Snapshot :=
  { values := e.values, held := e.held, rollsLeft := e.rollsLeft, hasRolled := e.hasRolled }

/-- `DiceEngine.restoreState(state)`.  The JS guard `if (!state) return` is the
`none` branch; a real snapshot always restores and clears `isRolling`. -/
def restoreState (e : EngineState) (st : Option Snapshot) : EngineState :=
  match st with
  | none => e
  | some s =>
      { values := s.values, held := s.held, rollsLeft := s.rollsLeft,
        hasRolled := s.hasRolled, isRolling := false }

/-- `DiceEngine.roll()`.  `rand i` is the random face drawn for die `i`; the
guard returns the state unchanged (JS returns `false`) when no rolls remain or
a roll is in progress. -/
def roll (e : EngineState) (rand : Nat → Nat) : EngineState :=
  if e.rollsLeft = 0 ∨ e.isRolling then e
  else
    { e with
      isRolling := true, hasRolled := true, rollsLeft := e.rollsLeft - 1,
      values := e.values.mapIdx fun i v => if e.held.getD i false then v else rand i }

/-- `DiceEngine.finishRoll()` — the renderer's animation-finished callback. -/
def finishRoll (e : EngineState) : EngineState := { e with isRolling := false }

/-- `DiceEngine.toggleHold(index)`; a no-op (JS returns `false`) before the
first roll, mid-roll, with no rolls left, or for an out-of-range index. -/
def toggleHold (e : EngineState) (i : Nat) : EngineState :=
  if ¬ e.hasRolled ∨ e.isRolling ∨ e.rollsLeft = 0 then e
  else if i < e.values.length then { e with held := e.held.set i (! e.held.getD i false) }
  else e

end Dice

namespace Farkle

/-- `TARGET_SCORE` from `FarkleGame.js`. -/
def TARGET_SCORE : Nat := 10000

/-- `MIN_SCORE_3RD_ROLL` from `FarkleGame.js`. -/
def MIN_SCORE_3RD_ROLL : Nat := 350

/-- The `turnState` strings of `FarkleGame`. -/
inductive TState
  | idle
  | rolling
  | selecting
  | confirmed
  | farkle
  | straightAttempt
deriving DecidableEq

/-- A Farkle player record (the derived `id` field is the list position and is
not stored). -/
structure Player where
  name : String
  color : String
  totalScore : Nat
deriving DecidableEq, Inhabited

/-- The mutable state of a `FarkleGame` instance.  JS `Set`s of die indices
are `Finset Nat`; `straightAttemptData` stores the `missingValue` of the
`{ possible: true, missingValue }` record or `none` for JS `null`. -/
structure GameState where
  players : List Player
  currentPlayerIndex : Nat
  turnScore : Nat
  rollCount : Nat
  setAsideDice : Finset Nat
  selectedDice : Finset Nat
  turnState : TState
  straightAttemptData : Option Nat
  finalRound : Bool
  finalRoundTriggerPlayer : Int
  playersHadFinalTurn : Finset Nat
  dice : Dice.EngineState
deriving DecidableEq

/-- `_startTurn()`: reset the turn-scoped state and the dice engine. -/
def startTurn (g : GameState) : GameState :=
  { g with
    turnScore := 0, rollCount := 0, setAsideDice := ∅, selectedDice := ∅,
    turnState := TState.idle, straightAttemptData := none,
    dice :=
      { values := List.replicate 6 1, held := List.replicate 6 false,
        rollsLeft := 1, hasRolled := false, isRolling := false } }

/-- The values of the currently selected dice (`this.diceEngine.values[idx]`
for `idx` of `this.selectedDice`).  The JS set iterates in insertion order;
index order is used here, which is indistinguishable downstream because
`scoreSelection` only depends on face multiplicities. -/
def selectedValues (g : GameState) : List Nat :=
  ((List.range 6).filter fun i => decide (i ∈ g.selectedDice)).map fun i =>
    g.dice.values.getD i 1

/-- The values of the non-set-aside dice, as collected by `_onRollEnd` /
`_updateScoringHints`. -/
def availableValues (g : GameState) : List Nat :=
  ((List.range 6).filter fun i => decide (i ∉ g.setAsideDice)).map fun i =>
    g.dice.values.getD i 1

/-- `_handleFarkle()`: enter the bust state, discarding the turn score.  The
`_nextPlayer()` call from its display timeout is the match controller's
`nextPlayer` step, modelled separately. -/
def handleFarkle (g : GameState) : GameState :=
  { g with turnState := TState.farkle, turnScore := 0 }

/-- `_handleForcedFarkle()` (the 350-rule bust): same state change as
`_handleFarkle`, different overlay text. -/
def handleForcedFarkle (g : GameState) : GameState :=
  { g with turnState := TState.farkle, turnScore := 0 }

/-- `_handleHotDice()`: clear the set-aside set and (in its timeout) reset the
engine for a fresh roll of all six dice and transition to `confirmed`. -/
def handleHotDice (g : GameState) : GameState :=
  { g with
    setAsideDice := ∅, turnState := TState.confirmed,
    dice :=
      { g.dice with
        values := List.replicate 6 1, held := List.replicate 6 false,
        rollsLeft := 1, hasRolled := false } }

/-- `_onRollEnd()`: block `toggleHold`, then either bust on a Farkle roll or
enter `selecting`, recording a possible straight attempt when all six dice
are available. -/
def onRollEnd (g : GameState) : GameState :=
  let g0 := { g with dice := { g.dice with rollsLeft := 0 } }
  if isFarkle (availableValues g) then handleFarkle g0
  else
    let sa :=
      if (availableValues g).length = 6 then
        let r := detectStraightAttempt (availableValues g)
        if r.possible then r.missingValue else none
      else none
    { g0 with turnState := TState.selecting, straightAttemptData := sa }

/-- `_confirmSelection()`: score the pending selection; invalid or empty
selections are silent no-ops.  A valid selection is added to the turn score
and set aside, then hot dice, the 350 forced-bust rule and the plain
`confirmed` transition are checked in that order. -/
def confirmSelection (g : GameState) : GameState :=
  if g.turnState ≠ TState.selecting then g
  else if g.selectedDice = ∅ then g
  else
    match scoreSelection (selectedValues g) with
    | none => g
    | some score =>
        let g1 :=
          { g with
            turnScore := g.turnScore + score,
            setAsideDice := g.setAsideDice ∪ g.selectedDice,
            selectedDice := ∅ }
        if 6 ≤ g1.setAsideDice.card then handleHotDice g1
        else if 3 ≤ g1.rollCount ∧ g1.turnScore < MIN_SCORE_3RD_ROLL then handleForcedFarkle g1
        else { g1 with turnState := TState.confirmed }

/-- One step of the `_endGame()` winners fold (`maxScore` starts at `-1`). -/
def winnersStep (acc : Int × List Player) (p : Player) : Int × List Player :=
  if acc.1 < (p.totalScore : Int) then ((p.totalScore : Int), [p])
  else if (p.totalScore : Int) = acc.1 then (acc.1, acc.2 ++ [p])
  else acc

/-- The winner list computed by `_endGame()`. -/
def endGameWinners (ps : List Player) : List Player :=
  (ps.foldl winnersStep (-1, [])).2

/-- The `allDone` check of `_nextPlayer()`:
`players.every((_, i) => i === trigger || playersHadFinalTurn.has(i))`. -/
def allDoneP (g : GameState) : Prop :=
  ∀ i < g.players.length, (i : Int) = g.finalRoundTriggerPlayer ∨ i ∈ g.playersHadFinalTurn

instance (g : GameState) : Decidable (allDoneP g) := by
  unfold allDoneP; infer_instance

/-- Result of ending a turn: either the game continues with a new state or it
ends with the `_endGame()` winner list. -/
inductive NextResult
  | cont (g : GameState)
  | ended (winners : List Player)
deriving DecidableEq

/-- `_nextPlayer()`: record the final-round turn just completed, end the game
when every non-trigger player is done, otherwise advance cyclically (skipping
the trigger player during the final round) and start the next turn. -/
def nextPlayer (g : GameState) : NextResult :=
  let n := g.players.length
  let g1 :=
    if g.finalRound then
      { g with playersHadFinalTurn := insert g.currentPlayerIndex g.playersHadFinalTurn }
    else g
  if g.finalRound = true ∧ allDoneP g1 then NextResult.ended (endGameWinners g1.players)
  else
    let g2 := { g1 with currentPlayerIndex := (g1.currentPlayerIndex + 1) % n }
    if g2.finalRound = true ∧ (g2.currentPlayerIndex : Int) = g2.finalRoundTriggerPlayer then
      let g3 :=
        { g2 with
          playersHadFinalTurn := insert g2.currentPlayerIndex g2.playersHadFinalTurn,
          currentPlayerIndex := (g2.currentPlayerIndex + 1) % n }
      if allDoneP g3 then NextResult.ended (endGameWinners g3.players)
      else NextResult.cont (startTurn g3)
    else NextResult.cont (startTurn g2)

/-- The score-banking half of `_bank()` (before its `_nextPlayer()` call):
add the turn score to the current player's total and trigger the final round
when the target is first reached. -/
def bankCore (g : GameState) : GameState :=
  let p := g.players.getD g.currentPlayerIndex default
  let p1 : Player := { p with totalScore := p.totalScore + g.turnScore }
  let g1 := { g with players := g.players.set g.currentPlayerIndex p1 }
  if TARGET_SCORE ≤ p1.totalScore ∧ g.finalRound = false then
    { g1 with finalRound := true, finalRoundTriggerPlayer := (g.currentPlayerIndex : Int) }
  else g1

/-- `_bank()`: a no-op outside the `confirmed` state, otherwise bank the turn
score and advance to the next player. -/
def bank (g : GameState) : NextResult :=
  if g.turnState ≠ TState.confirmed then NextResult.cont g
  else nextPlayer (bankCore g)

/-- Outcome of one whole player turn at the match level: the player either
reaches `confirmed` with some accumulated `turnScore` and banks it, or busts
(plain or forced Farkle — either way `_nextPlayer` runs on a state with the
turn score zeroed). -/
inductive TurnOutcome
  | banked (t : Nat)
  | busted
deriving DecidableEq

/-- End the current player's turn with the given outcome, using the source
transitions: banking goes through `_bank` from a `confirmed` state carrying
the accumulated turn score, busting goes through the `_handleFarkle` state
change followed by `_nextPlayer`. -/
def endTurn (g : GameState) (o : TurnOutcome) : NextResult :=
  match o with
  | TurnOutcome.banked t => bank { g with turnState := TState.confirmed, turnScore := t }
  | TurnOutcome.busted => nextPlayer (handleFarkle g)

/-- The players who take a turn (in order) along a run of turn outcomes,
stopping when the game ends. -/
def turnTakers : GameState → List TurnOutcome → List Nat
  | _, [] => []
  | g, o :: os =>
      g.currentPlayerIndex ::
        match endTurn g o with
        | NextResult.cont g1 => turnTakers g1 os
        | NextResult.ended _ => []

/-- The winner list if the game ends within the given run of turn outcomes,
`none` if it is still going. -/
def runWinners : GameState → List TurnOutcome → Option (List Player)
  | _, [] => none
  | g, o :: os =>
      match endTurn g o with
      | NextResult.cont g1 => runWinners g1 os
      | NextResult.ended w => some w

/-- The record written by `_autoSave()` (the external `gameId`, `gameType` and
`gameStartTime` bookkeeping fields are omitted; JS spreads the index sets into
arrays, modelled as the sorted element list). -/
structure GameSnapshot where
  players : List Player
  currentPlayerIndex : Nat
  turnScore : Nat
  rollCount : Nat
  setAsideDice : List Nat
  selectedDice : List Nat
  turnState : TState
  finalRound : Bool
  finalRoundTriggerPlayer : Int
  playersHadFinalTurn : List Nat
  dice : Dice.Snapshot
deriving DecidableEq

/-- `_autoSave()`: serialise the game state. -/
def autoSave (g : GameState) : GameSnapshot :=
  { players := g.players.map fun p =>
      { name := p.name, color := p.color, totalScore := p.totalScore },
    currentPlayerIndex := g.currentPlayerIndex,
    turnScore := g.turnScore,
    rollCount := g.rollCount,
    setAsideDice := g.setAsideDice.sort (· ≤ ·),
    selectedDice := g.selectedDice.sort (· ≤ ·),
    turnState := g.turnState,
    finalRound := g.finalRound,
    finalRoundTriggerPlayer := g.finalRoundTriggerPlayer,
    playersHadFinalTurn := g.playersHadFinalTurn.sort (· ≤ ·),
    dice := Dice.getState g.dice }

/-- `FarkleGame._restoreState(state)`: rebuild the game from a snapshot.  It
runs from the constructor, where `straightAttemptData` is `null`; after
restoring the engine it forces `rollsLeft := 0` ("Block toggleHold"). -/
def gameRestoreState (g : GameState) (st : GameSnapshot) : GameState :=
  let e := Dice.restoreState g.dice (some st.dice)
  { players := st.players.map fun p =>
      { name := p.name, color := p.color, totalScore := p.totalScore },
    currentPlayerIndex := st.currentPlayerIndex,
    turnScore := st.turnScore,
    rollCount := st.rollCount,
    setAsideDice := st.setAsideDice.toFinset,
    selectedDice := st.selectedDice.toFinset,
    turnState := st.turnState,
    straightAttemptData := none,
    finalRound := st.finalRound,
    finalRoundTriggerPlayer := st.finalRoundTriggerPlayer,
    playersHadFinalTurn := st.playersHadFinalTurn.toFinset,
    dice := { e with rollsLeft := 0 } }

end Farkle

namespace Yahtzee

/-- `countDice` from `YahtzeeScoring.js`: sum of the dice equal to `val`. -/
def countDice (d : List Nat) (val : Nat) : Nat := (d.filter fun x => x == val).sum

/-- `threeOfAKind`: sum of all dice when some face occurs at least 3 times. -/
def threeOfAKind (d : List Nat) : Nat :=
  if ∃ v ∈ d.dedup, 3 ≤ d.count v then d.sum else 0

/-- `fourOfAKind`: sum of all dice when some face occurs at least 4 times. -/
def fourOfAKind (d : List Nat) : Nat :=
  if ∃ v ∈ d.dedup, 4 ≤ d.count v then d.sum else 0

/-- `fullHouse`: 25 when some face occurs exactly 3 times and some face
exactly 2 times. -/
def fullHouse (d : List Nat) : Nat :=
  if (∃ v ∈ d.dedup, d.count v = 3) ∧ ∃ v ∈ d.dedup, d.count v = 2 then 25 else 0

/-- `smallStraight`: 30 when the sorted distinct faces contain `1234`, `2345`
or `3456` as a block; for die faces (single digits) the JS string containment
is set containment. -/
def smallStraight (d : List Nat) : Nat :=
  if [1, 2, 3, 4].all (· ∈ d) ∨ [2, 3, 4, 5].all (· ∈ d) ∨ [3, 4, 5, 6].all (· ∈ d) then 30
  else 0

/-- `largeStraight`: 40 when the sorted dice read `12345` or `23456`; for die
faces this is permutation equality. -/
def largeStraight (d : List Nat) : Nat :=
  if d.Perm [1, 2, 3, 4, 5] ∨ d.Perm [2, 3, 4, 5, 6] then 40 else 0

/-- `yahtzeeCheck`: 50 when every die equals the first (`d.every(v => v ===
d[0])`; vacuously 50 on an empty list, as in JS). -/
def yahtzeeCheck (d : List Nat) : Nat :=
  if d.all fun v => v == d.getD 0 0 then 50 else 0

/-- `chance`: sum of all dice. -/
def chance (d : List Nat) : Nat := d.sum

/-- The category ids of `YahtzeeCategories.js`. -/
inductive CatId
  | ones
  | twos
  | threes
  | fours
  | fives
  | sixes
  | bonus
  | threeKind
  | fourKind
  | fullHouseCat
  | smallStraightCat
  | largeStraightCat
  | yahtzee
  | chanceCat
deriving DecidableEq

/-- Display group of a category. -/
inductive CatType
  | upper
  | lower
  | bonusType
deriving DecidableEq

/-- A category record (`id`, `type`, and scoring function `calc`, renamed `calcScore`; the display `name` is dropped). -/
structure Category where
  id : CatId
  type : CatType
  calcScore : List Nat → Nat

/-- The `categories` array of `YahtzeeCategories.js`. -/
def categories : List Category :=
  [⟨CatId.ones, CatType.upper, fun d => countDice d 1⟩,
   ⟨CatId.twos, CatType.upper, fun d => countDice d 2⟩,
   ⟨CatId.threes, CatType.upper, fun d => countDice d 3⟩,
   ⟨CatId.fours, CatType.upper, fun d => countDice d 4⟩,
   ⟨CatId.fives, CatType.upper, fun d => countDice d 5⟩,
   ⟨CatId.sixes, CatType.upper, fun d => countDice d 6⟩,
   ⟨CatId.bonus, CatType.bonusType, fun _ => 0⟩,
   ⟨CatId.threeKind, CatType.lower, threeOfAKind⟩,
   ⟨CatId.fourKind, CatType.lower, fourOfAKind⟩,
   ⟨CatId.fullHouseCat, CatType.lower, fullHouse⟩,
   ⟨CatId.smallStraightCat, CatType.lower, smallStraight⟩,
   ⟨CatId.largeStraightCat, CatType.lower, largeStraight⟩,
   ⟨CatId.yahtzee, CatType.lower, yahtzeeCheck⟩,
   ⟨CatId.chanceCat, CatType.lower, chance⟩]

/-- A Yahtzee player: the `scores` object is an association list from category
id to the recorded score, `yahtzees` is the Yahtzee bonus counter. -/
structure YPlayer where
  name : String
  scores : List (CatId × Nat)
  yahtzees : Nat
deriving DecidableEq

/-- `calculateUpperSum` from `YahtzeeScoring.js`. -/
def calculateUpperSum (p : YPlayer) : Nat :=
  ([CatId.ones, CatId.twos, CatId.threes, CatId.fours, CatId.fives, CatId.sixes].map
    fun id => (p.scores.lookup id).getD 0).sum

/-- The multi-Yahtzee bonus term of `calculateTotal`:
`(yahtzees - 1) * 100` when `yahtzees > 1`. -/
def yahtzeeBonus (p : YPlayer) : Nat :=
  if 1 < p.yahtzees then (p.yahtzees - 1) * 100 else 0

/-- `calculateTotal` from `YahtzeeScoring.js`: upper sum (+35 bonus at 63),
plus all lower-section scores, plus the multi-Yahtzee bonus. -/
def calculateTotal (p : YPlayer) : Nat :=
  let upper := calculateUpperSum p
  let base := upper + (if 63 ≤ upper then 35 else 0)
  let lower :=
    ((categories.filter fun c => c.type == CatType.lower).map
      fun c => (p.scores.lookup c.id).getD 0).sum
  base + lower + yahtzeeBonus p

/-- The scoring core of `YahtzeeGame._selectCategory(catId)` acting on the
current player given the rolled dice: unknown or already-filled categories
are no-ops; scoring a 50 in the `yahtzee` category bumps the bonus counter
and rewrites the score to 100 from the second Yahtzee on.  (The engine guard
`!hasRolled || isRolling` precedes this in the source and is turn plumbing
independent of the player record.) -/
def selectCategory (p : YPlayer) (catId : CatId) (dice : List Nat) : YPlayer :=
  match categories.find? fun c => c.id == catId with
  | none => p
  | some cat =>
      if (p.scores.lookup catId).isSome then p
      else
        let score := cat.calcScore dice
        let y := if catId = CatId.yahtzee ∧ score = 50 then p.yahtzees + 1 else p.yahtzees
        let score1 := if catId = CatId.yahtzee ∧ score = 50 ∧ 1 < y then 100 else score
        { p with yahtzees := y, scores := (catId, score1) :: p.scores }

end Yahtzee

namespace Farkle

/-! ### Specification-side scoring algorithm

`scoreSelectionSpec` is modelled from the specification's words, for
comparison with the source's `scoreSelection`: after the three special
6-dice combos, "each face v occurring count ≥ 3 times contributes
base(v) · 2^(count−3)" (consuming all dice of that face), leftover dice
score 100 per face-1 die and 50 per face-5 die, and any other leftover
face makes the selection invalid. -/

/-- Spec-side multiplier: `2^(count-3)` for any count ≥ 3. -/
def specMult (c : Nat) : Nat := if 3 ≤ c then 2 ^ (c - 3) else 0

/-- Spec-side leftover dice of face `v`: an n-of-a-kind group consumes all
its dice, so only faces with fewer than 3 occurrences are left over. -/
def specLeftover (l : List Nat) (v : Nat) : Nat :=
  if 3 ≤ l.count v then 0 else l.count v

/-- Spec-side n-of-a-kind total. -/
def specMultiplesScore (l : List Nat) : Nat :=
  ([1, 2, 3, 4, 5, 6].map fun v => tripleBase v * specMult (l.count v)).sum

/-- Spec-side singles total. -/
def specSinglesScore (l : List Nat) : Nat :=
  100 * specLeftover l 1 + 50 * specLeftover l 5

/-- Spec-side invalidity: some leftover die has a non-scoring face. -/
def specHasInvalidLeftover (l : List Nat) : Prop :=
  ∃ v ∈ [2, 3, 4, 6], 0 < specLeftover l v

instance (l : List Nat) : Decidable (specHasInvalidLeftover l) := by
  unfold specHasInvalidLeftover; infer_instance

/-- The claimed scoring algorithm, assembled exactly like `scoreSelection`
but with the spec-side per-face contributions. -/
def scoreSelectionSpec (l : List Nat) : Option Nat :=
  if l.length = 0 then none
  else if l.length = 6 ∧ isStraight6 l then some STRAIGHT_SCORE
  else if l.length = 6 ∧ pairsCount l = 3 then some THREE_PAIRS_SCORE
  else if l.length = 6 ∧ tripletsCount l = 2 then some TWO_TRIPLETS_SCORE
  else if specHasInvalidLeftover l then none
  else if 0 < specMultiplesScore l + specSinglesScore l then
    some (specMultiplesScore l + specSinglesScore l)
  else none

/-- Spec-side straight-attempt condition: 6 dice, exactly 5 distinct face
values all within 1–6, and exactly one face value duplicated. -/
def straightAttemptPred (l : List Nat) : Prop :=
  l.length = 6 ∧ l.dedup.length = 5 ∧ (∀ v ∈ l, 1 ≤ v ∧ v ≤ 6) ∧
    (l.dedup.filter fun v => l.count v == 2).length = 1

instance (l : List Nat) : Decidable (straightAttemptPred l) := by
  unfold straightAttemptPred; infer_instance

/-- For at most six dice of a face, the source's 6/5/4/3 ladder multiplier is
the spec's doubling formula. -/
lemma multMult_eq_specMult {c : Nat} (h : c ≤ 6) : multMult c = specMult c := by
  interval_cases c <;> rfl

/-- For at most six dice of a face, the ladder consumes the whole group
whenever it fires. -/
lemma sub_multTaken_eq {c : Nat} (h : c ≤ 6) :
    c - multTaken c = if 3 ≤ c then 0 else c := by
  interval_cases c <;> rfl

end Farkle

end Yatzee

/-! ## Claim theorems -/

open Yatzee Yatzee.Farkle Yatzee.Dice

/-- Claim C1 (amended): for selections of die faces 1–6 in which no face
occurs more than six times — which covers every selection of the game's six
physical dice — `scoreSelection` computes exactly the claimed priority
algorithm (`scoreSelectionSpec`), and all the claimed particular values
hold.  (Amendment: the bound of six occurrences per face; see the
counterexample.) -/
theorem scoreSelection_follows_spec_algorithm :
    (∀ l : List Nat, (∀ v ∈ l, 1 ≤ v ∧ v ≤ 6) → (∀ v ∈ l, l.count v ≤ 6) →
      scoreSelection l = scoreSelectionSpec l) ∧
    scoreSelection [1, 1, 1] = some 1000 ∧
    scoreSelection [2, 2, 2] = some 200 ∧
    scoreSelection [1, 2, 3, 4, 5, 6] = some 1000 ∧
    scoreSelection [2, 2, 3, 3, 5, 5] = some 1500 ∧
    scoreSelection [4, 4, 4, 2, 2, 2] = some 2500 ∧
    scoreSelection [1, 1, 1, 1] = some 2000 ∧
    scoreSelection [2, 3, 4] = none := by
  refine ⟨?_, by decide, by decide, by decide, by decide, by decide, by decide, by decide⟩
  intro l _hr hc
  have hcv : ∀ v, l.count v ≤ 6 := by
    intro v
    by_cases hv : v ∈ l
    · exact hc v hv
    · simp [List.count_eq_zero_of_not_mem hv]
  have hm : ∀ v : Nat, multMult (l.count v) = specMult (l.count v) :=
    fun v => multMult_eq_specMult (hcv v)
  have hl : ∀ v : Nat, leftoverCount l v = specLeftover l v := by
    intro v
    unfold leftoverCount specLeftover
    exact sub_multTaken_eq (hcv v)
  have e1 : multiplesScore l = specMultiplesScore l := by
    simp only [multiplesScore, specMultiplesScore, hm]
  have e2 : singlesScore l = specSinglesScore l := by
    simp only [singlesScore, specSinglesScore, hl]
  have e3 : hasInvalidLeftover l ↔ specHasInvalidLeftover l := by
    unfold hasInvalidLeftover specHasInvalidLeftover
    simp only [hl]
  simp only [scoreSelection, scoreSelectionSpec, e1, e2, e3]

/-- Witness for the amended claim C1 at a concrete selection. -/
theorem scoreSelection_follows_spec_algorithm_witness :
    scoreSelection [5, 5, 5, 5] = scoreSelectionSpec [5, 5, 5, 5] :=
  scoreSelection_follows_spec_algorithm.1 [5, 5, 5, 5] (by decide) (by decide)

/-- Counterexample to claim C1 as stated: for seven 1s (a face occurring more
than six times) the source extracts a six-of-a-kind (1000·8) and scores the
seventh die as a single (100), while the claimed formula
`base(v)·2^(count−3)` would give 1000·2⁴ = 16000. -/
theorem scoreSelection_seven_ones_cex :
    scoreSelection [1, 1, 1, 1, 1, 1, 1] = some 8100 ∧
    scoreSelectionSpec [1, 1, 1, 1, 1, 1, 1] = some 16000 ∧
    scoreSelection [1, 1, 1, 1, 1, 1, 1] ≠ scoreSelectionSpec [1, 1, 1, 1, 1, 1, 1] := by
  refine ⟨by decide, by decide, by decide⟩

/-- A reachable mid-turn state used as concrete input: six dice showing 5,
four already set aside over two earlier confirms (two 5s each, 100 + 100
points), third roll done, the last two 5s selected. -/
def gHotDiceEx : Farkle.GameState :=
  { players := [{ name := "A", color := "red", totalScore := 0 }],
    currentPlayerIndex := 0,
    turnScore := 200,
    rollCount := 3,
    setAsideDice := {0, 1, 2, 3},
    selectedDice := {4, 5},
    turnState := Farkle.TState.selecting,
    straightAttemptData := none,
    finalRound := false,
    finalRoundTriggerPlayer := -1,
    playersHadFinalTurn := ∅,
    dice :=
      { values := [5, 5, 5, 5, 5, 5], held := [true, true, true, true, false, false],
        rollsLeft := 0, hasRolled := true, isRolling := false } }

/-- Counterexample to claim C2 as stated: in `gHotDiceEx` the confirm is
valid (two single 5s, +100), `rollCount = 3` and the resulting
`turnScore = 300 < 350`, yet the confirm completes all six set-aside dice,
so `_confirmSelection` takes the hot-dice branch *before* the 350-rule check:
the turn ends in `confirmed`, not `farkle`, and the 300 points are kept. -/
theorem forced_bust_preempted_by_hot_dice_cex :
    scoreSelection (selectedValues gHotDiceEx) = some 100 ∧
    gHotDiceEx.rollCount = 3 ∧
    (confirmSelection gHotDiceEx).turnScore = 300 ∧
    (confirmSelection gHotDiceEx).turnState = Farkle.TState.confirmed ∧
    (confirmSelection gHotDiceEx).turnState ≠ Farkle.TState.farkle ∧
    (confirmSelection gHotDiceEx).turnScore ≠ 0 := by
  refine ⟨by decide, by decide, by decide, by decide, by decide, by decide⟩

/-- Claim C2 (amended): confirming a valid selection with `rollCount ≥ 3` and
resulting turn score below 350 busts the turn and zeroes the turn score,
*provided* the confirm does not complete all six set-aside dice (in that case
the hot-dice branch takes priority; see the counterexample). -/
theorem forced_bust_after_third_roll :
    ∀ (g : Farkle.GameState) (score : Nat),
      g.turnState = Farkle.TState.selecting →
      g.selectedDice ≠ ∅ →
      scoreSelection (selectedValues g) = some score →
      (g.setAsideDice ∪ g.selectedDice).card < 6 →
      3 ≤ g.rollCount →
      g.turnScore + score < 350 →
      (confirmSelection g).turnState = Farkle.TState.farkle ∧
      (confirmSelection g).turnScore = 0 := by
  intro g score h1 h2 h3 h4 h5 h6
  unfold confirmSelection
  rw [if_neg (by simp [h1]), if_neg h2, h3]
  dsimp only
  rw [if_neg (by simpa using Nat.not_le.mpr h4)]
  rw [if_pos (by exact ⟨h5, h6⟩)]
  exact ⟨rfl, rfl⟩

/-- Witness for the amended claim C2: third roll, 150 + 50 = 200 < 350, only
four dice set aside afterwards — forced bust. -/
theorem forced_bust_after_third_roll_witness :
    (confirmSelection
        { gHotDiceEx with
          turnScore := 150, setAsideDice := {0, 1, 2}, selectedDice := {3} }).turnState =
      Farkle.TState.farkle ∧
    (confirmSelection
        { gHotDiceEx with
          turnScore := 150, setAsideDice := {0, 1, 2}, selectedDice := {3} }).turnScore = 0 :=
  forced_bust_after_third_roll _ 50 rfl (by decide) (by decide) (by decide) (by decide)
    (by decide)

/-- Claim C3: confirming a valid selection that completes all six set-aside
dice always hot-dices — state `confirmed`, set-aside cleared, all six dice
unheld with a roll available, and the accumulated turn score (old score plus
the confirmed selection) kept. -/
theorem hot_dice_preserves_turn_score :
    ∀ (g : Farkle.GameState) (score : Nat),
      g.turnState = Farkle.TState.selecting →
      g.selectedDice ≠ ∅ →
      scoreSelection (selectedValues g) = some score →
      g.setAsideDice ∪ g.selectedDice = Finset.range 6 →
      (confirmSelection g).turnState = Farkle.TState.confirmed ∧
      (confirmSelection g).setAsideDice = ∅ ∧
      (confirmSelection g).dice.held = List.replicate 6 false ∧
      (confirmSelection g).dice.rollsLeft = 1 ∧
      (confirmSelection g).turnScore = g.turnScore + score := by
  intro g score h1 h2 h3 h4
  unfold confirmSelection
  rw [if_neg (by simp [h1]), if_neg h2, h3]
  dsimp only
  rw [if_pos (by rw [h4]; simp)]
  exact ⟨rfl, rfl, rfl, rfl, rfl⟩

/-- Witness for claim C3 on the concrete hot-dice state. -/
theorem hot_dice_preserves_turn_score_witness :
    (confirmSelection gHotDiceEx).turnState = Farkle.TState.confirmed ∧
    (confirmSelection gHotDiceEx).setAsideDice = ∅ ∧
    (confirmSelection gHotDiceEx).dice.held = List.replicate 6 false ∧
    (confirmSelection gHotDiceEx).dice.rollsLeft = 1 ∧
    (confirmSelection gHotDiceEx).turnScore = gHotDiceEx.turnScore + 100 :=
  hot_dice_preserves_turn_score gHotDiceEx 100 rfl (by decide) (by decide) (by decide)

/-- Claim C7: every invalid command is a silent no-op — confirming outside
`selecting`, confirming an empty or non-scoring selection, rolling while a
roll is in progress or with no rolls remaining, hold-toggling with rolls
exhausted, and banking outside `confirmed` all leave the state unchanged. -/
theorem invalid_commands_are_noops :
    (∀ g : Farkle.GameState,
      g.turnState ≠ Farkle.TState.selecting → confirmSelection g = g) ∧
    (∀ g : Farkle.GameState, g.selectedDice = ∅ → confirmSelection g = g) ∧
    (∀ g : Farkle.GameState,
      scoreSelection (selectedValues g) = none → confirmSelection g = g) ∧
    (∀ (e : Dice.EngineState) (rand : Nat → Nat),
      e.isRolling = true → Dice.roll e rand = e) ∧
    (∀ (e : Dice.EngineState) (rand : Nat → Nat),
      e.rollsLeft = 0 → Dice.roll e rand = e) ∧
    (∀ (e : Dice.EngineState) (i : Nat), e.rollsLeft = 0 → Dice.toggleHold e i = e) ∧
    (∀ g : Farkle.GameState,
      g.turnState ≠ Farkle.TState.confirmed → bank g = Farkle.NextResult.cont g) := by
  refine ⟨?_, ?_, ?_, ?_, ?_, ?_, ?_⟩
  · intro g h
    unfold confirmSelection
    rw [if_pos h]
  · intro g h
    unfold confirmSelection
    by_cases h1 : g.turnState ≠ Farkle.TState.selecting
    · rw [if_pos h1]
    · rw [if_neg h1, if_pos h]
  · intro g h
    unfold confirmSelection
    by_cases h1 : g.turnState ≠ Farkle.TState.selecting
    · rw [if_pos h1]
    · rw [if_neg h1]
      by_cases h2 : g.selectedDice = ∅
      · rw [if_pos h2]
      · rw [if_neg h2, h]
  · intro e rand h
    unfold Dice.roll
    rw [if_pos (Or.inr h)]
  · intro e rand h
    unfold Dice.roll
    rw [if_pos (Or.inl h)]
  · intro e i h
    unfold Dice.toggleHold
    rw [if_pos (Or.inr (Or.inr h))]
  · intro g h
    unfold bank
    rw [if_pos h]

/-- Witness for claim C7: banking from the `selecting` state changes
nothing. -/
theorem invalid_commands_are_noops_witness :
    bank gHotDiceEx = Farkle.NextResult.cont gHotDiceEx :=
  invalid_commands_are_noops.2.2.2.2.2.2 gHotDiceEx (by decide)

/-- Claim C10: `DiceEngine.restoreState` always clears `isRolling`, for every
snapshot. -/
theorem restoreState_clears_isRolling :
    ∀ (e : Dice.EngineState) (s : Dice.Snapshot),
      (Dice.restoreState e (some s)).isRolling = false :=
  fun _ _ => rfl

/-- A save-point state: the turn just started (`_startTurn` ran, then
`_autoSave` — the engine is primed with `rollsLeft = 1`). -/
def gTurnStartEx : Farkle.GameState :=
  startTurn gHotDiceEx

/-- Counterexample to claim C8 as stated: a Farkle snapshot saved at a turn
start carries `dice.rollsLeft = 1`, but `FarkleGame._restoreState` forces the
engine's `rollsLeft` to 0 after restoring, so the dice state is not
reproduced identically. -/
theorem farkle_restore_forces_rollsLeft_cex :
    gTurnStartEx.dice.rollsLeft = 1 ∧
    (autoSave gTurnStartEx).dice.rollsLeft = 1 ∧
    (gameRestoreState gTurnStartEx (autoSave gTurnStartEx)).dice.rollsLeft = 0 ∧
    (gameRestoreState gTurnStartEx (autoSave gTurnStartEx)).dice ≠ gTurnStartEx.dice := by
  refine ⟨by decide, by decide, by decide, by decide⟩

/-- Claim C8 (amended): `restoreState ∘ getState` is an identity on the Dice
Source's observable state (values, held flags, rolls remaining, hasRolled);
restoring a full Farkle turn snapshot reproduces the turn score, roll count,
set-aside set, selection, turn state, players, final-round bookkeeping and
the dice values/held/hasRolled — but the engine's `rollsLeft` is forced to 0
(and `isRolling` to false) by the restore. -/
theorem save_restore_round_trip :
    (∀ e : Dice.EngineState,
      (Dice.restoreState e (some (Dice.getState e))).values = e.values ∧
      (Dice.restoreState e (some (Dice.getState e))).held = e.held ∧
      (Dice.restoreState e (some (Dice.getState e))).rollsLeft = e.rollsLeft ∧
      (Dice.restoreState e (some (Dice.getState e))).hasRolled = e.hasRolled) ∧
    (∀ g : Farkle.GameState,
      (gameRestoreState g (autoSave g)).players = g.players ∧
      (gameRestoreState g (autoSave g)).currentPlayerIndex = g.currentPlayerIndex ∧
      (gameRestoreState g (autoSave g)).turnScore = g.turnScore ∧
      (gameRestoreState g (autoSave g)).rollCount = g.rollCount ∧
      (gameRestoreState g (autoSave g)).setAsideDice = g.setAsideDice ∧
      (gameRestoreState g (autoSave g)).selectedDice = g.selectedDice ∧
      (gameRestoreState g (autoSave g)).turnState = g.turnState ∧
      (gameRestoreState g (autoSave g)).finalRound = g.finalRound ∧
      (gameRestoreState g (autoSave g)).finalRoundTriggerPlayer = g.finalRoundTriggerPlayer ∧
      (gameRestoreState g (autoSave g)).playersHadFinalTurn = g.playersHadFinalTurn ∧
      (gameRestoreState g (autoSave g)).dice.values = g.dice.values ∧
      (gameRestoreState g (autoSave g)).dice.held = g.dice.held ∧
      (gameRestoreState g (autoSave g)).dice.hasRolled = g.dice.hasRolled ∧
      (gameRestoreState g (autoSave g)).dice.rollsLeft = 0 ∧
      (gameRestoreState g (autoSave g)).dice.isRolling = false) := by
  constructor
  · intro e
    exact ⟨rfl, rfl, rfl, rfl⟩
  · intro g
    have hplayers : (gameRestoreState g (autoSave g)).players = g.players := by
      show ((g.players.map fun p =>
          ({ name := p.name, color := p.color, totalScore := p.totalScore } : Farkle.Player)).map
            fun p =>
          ({ name := p.name, color := p.color, totalScore := p.totalScore } : Farkle.Player)) =
        g.players
      have hid : (fun p : Farkle.Player =>
          ({ name := p.name, color := p.color, totalScore := p.totalScore } : Farkle.Player)) =
          id := by
        funext p
        rfl
      rw [hid, List.map_id, List.map_id]
    refine ⟨hplayers, rfl, rfl, rfl, ?_, ?_, rfl, rfl, rfl, ?_, rfl, rfl, rfl, rfl, rfl⟩
    · exact Finset.sort_toFinset _ _
    · exact Finset.sort_toFinset _ _
    · exact Finset.sort_toFinset _ _

/-- Claim C4: `isFarkle` is true exactly when no scoring option exists — no 1
or 5, no face with three or more occurrences, no 6-dice full straight and no
6-dice three pairs; `_onRollEnd` busts exactly when `isFarkle` holds of the
currently available (non-set-aside) dice; and the quoted examples hold. -/
theorem isFarkle_matches_spec :
    (∀ l : List Nat, l ≠ [] →
      (isFarkle l = true ↔
        ¬ (1 ∈ l ∨ 5 ∈ l ∨ (∃ v ∈ l, 3 ≤ l.count v) ∨
            (l.length = 6 ∧ isStraight6 l) ∨ (l.length = 6 ∧ pairsCount l = 3)))) ∧
    (∀ g : Farkle.GameState,
      ((onRollEnd g).turnState = Farkle.TState.farkle ↔
        isFarkle (availableValues g) = true)) ∧
    isFarkle [2, 3, 4, 6] = true ∧
    isFarkle [2, 3, 4, 5] = false ∧
    isFarkle [1, 2, 3, 4, 5, 6] = false := by
  refine ⟨?_, ?_, by decide, by decide, by decide⟩
  · intro l hne
    have hnl : ¬ l.length = 0 := by
      simpa [List.length_eq_zero] using hne
    unfold isFarkle
    rw [if_neg hnl]
    split_ifs with h1 h2 h3 h4
    · simp only [Bool.false_eq_true, false_iff, not_not]
      tauto
    · simp only [Bool.false_eq_true, false_iff, not_not]
      obtain ⟨v, hv, hcnt⟩ := h2
      exact Or.inr (Or.inr (Or.inl ⟨v, List.mem_dedup.mp hv, hcnt⟩))
    · simp only [Bool.false_eq_true, false_iff, not_not]
      tauto
    · simp only [Bool.false_eq_true, false_iff, not_not]
      tauto
    · simp only [true_iff]
      intro hcon
      rcases hcon with hc | hc | hc | hc | hc
      · exact h1 (Or.inl hc)
      · exact h1 (Or.inr hc)
      · obtain ⟨v, hv, hcnt⟩ := hc
        exact h2 ⟨v, List.mem_dedup.mpr hv, hcnt⟩
      · exact h3 hc
      · exact h4 hc
  · intro g
    unfold onRollEnd
    by_cases hf : isFarkle (availableValues g) = true
    · simp [hf, handleFarkle]
    · simp only [Bool.not_eq_true] at hf
      simp [hf, handleFarkle]

/-- Witness for claim C4 at a concrete bust roll. -/
theorem isFarkle_matches_spec_witness :
    isFarkle [2, 3, 4, 6] = true ↔
      ¬ (1 ∈ [2, 3, 4, 6] ∨ 5 ∈ [2, 3, 4, 6] ∨
          (∃ v ∈ [2, 3, 4, 6], 3 ≤ [2, 3, 4, 6].count v) ∨
          ([2, 3, 4, 6].length = 6 ∧ isStraight6 [2, 3, 4, 6]) ∨
          ([2, 3, 4, 6].length = 6 ∧ pairsCount [2, 3, 4, 6] = 3)) :=
  isFarkle_matches_spec.1 [2, 3, 4, 6] (by decide)

/-- A list of positive naturals is at least as long as its sum is large. -/
lemma length_le_sum_of_pos {cs : List Nat} (h : ∀ c ∈ cs, 1 ≤ c) : cs.length ≤ cs.sum := by
  induction cs with
  | nil => simp
  | cons c cs ih =>
      simp only [List.length_cons, List.sum_cons]
      have hc := h c (List.mem_cons_self c cs)
      have ht := ih fun x hx => h x (List.mem_cons_of_mem c hx)
      omega

/-- Positive naturals summing to their count are all 1. -/
lemma all_eq_one_of_sum_eq_length {cs : List Nat} (h : ∀ c ∈ cs, 1 ≤ c)
    (hs : cs.sum = cs.length) : ∀ c ∈ cs, c = 1 := by
  induction cs with
  | nil => simp
  | cons c cs ih =>
      simp only [List.sum_cons, List.length_cons] at hs
      have hc := h c (List.mem_cons_self c cs)
      have ht : ∀ x ∈ cs, 1 ≤ x := fun x hx => h x (List.mem_cons_of_mem c hx)
      have hlen := length_le_sum_of_pos ht
      have hc1 : c = 1 := by omega
      have htail : cs.sum = cs.length := by omega
      intro x hx
      rcases List.mem_cons.mp hx with rfl | hx
      · exact hc1
      · exact ih ht htail x hx

/-- Positive naturals summing to one more than their count contain exactly
one 2 (and the rest are 1). -/
lemma countP_two_eq_one_of_sum_eq_length_succ {cs : List Nat} (h : ∀ c ∈ cs, 1 ≤ c)
    (hs : cs.sum = cs.length + 1) : cs.countP (fun c => c == 2) = 1 := by
  induction cs with
  | nil => simp at hs
  | cons c cs ih =>
      have hc := h c (List.mem_cons_self c cs)
      have ht : ∀ x ∈ cs, 1 ≤ x := fun x hx => h x (List.mem_cons_of_mem c hx)
      have hlen := length_le_sum_of_pos ht
      simp only [List.sum_cons, List.length_cons] at hs
      rcases Nat.lt_or_ge c 2 with hc2 | hc2
      · have hc1 : c = 1 := by omega
        have htail : cs.sum = cs.length + 1 := by omega
        have := ih ht htail
        rw [List.countP_cons]
        simp only [hc1, this]
        decide
      · rcases Nat.lt_or_ge c 3 with hc3 | hc3
        · have hc2' : c = 2 := by omega
          have hsum : cs.sum = cs.length := by omega
          have hall := all_eq_one_of_sum_eq_length ht hsum
          have hzero : cs.countP (fun c => c == 2) = 0 := by
            rw [List.countP_eq_zero]
            intro a ha
            simp [hall a ha]
          rw [List.countP_cons]
          simp [hc2', hzero]
        · omega

/-- With 6 dice showing exactly 5 distinct values, exactly one value is
duplicated (appears exactly twice). -/
lemma pairsFilter_length_eq_one {l : List Nat} (h6 : l.length = 6) (h5 : l.dedup.length = 5) :
    (l.dedup.filter fun v => l.count v == 2).length = 1 := by
  have hpos : ∀ c ∈ l.dedup.map fun v => l.count v, 1 ≤ c := by
    intro c hc
    obtain ⟨v, hv, rfl⟩ := List.mem_map.mp hc
    exact List.count_pos_iff.mpr (List.mem_dedup.mp hv)
  have hsum : (l.dedup.map fun v => l.count v).sum = 6 := by
    rw [List.sum_map_count_dedup_eq_length, h6]
  have hlen : (l.dedup.map fun v => l.count v).length = 5 := by
    rw [List.length_map, h5]
  have h1 : (l.dedup.map fun v => l.count v).countP (fun c => c == 2) = 1 :=
    countP_two_eq_one_of_sum_eq_length_succ hpos (by rw [hsum, hlen])
  rw [List.countP_map] at h1
  rw [← List.countP_eq_length_filter]
  simpa [Function.comp] using h1

/-- `detectStraightAttempt` only ever returns `⟨false, none⟩` or
`⟨true, some m⟩`. -/
lemma detectStraightAttempt_shape (l : List Nat) :
    detectStraightAttempt l = ⟨false, none⟩ ∨
      ∃ m, detectStraightAttempt l = ⟨true, some m⟩ := by
  unfold detectStraightAttempt
  by_cases h1 : l.length ≠ 6
  · rw [if_pos h1]
    exact Or.inl rfl
  · rw [if_neg h1]
    by_cases h2 : l.dedup.length ≠ 5
    · rw [if_pos h2]
      exact Or.inl rfl
    · rw [if_neg h2]
      by_cases h3 : ¬ (∀ v ∈ l.dedup, 1 ≤ v ∧ v ≤ 6)
      · rw [if_pos h3]
        exact Or.inl rfl
      · rw [if_neg h3]
        rcases hfd : [1, 2, 3, 4, 5, 6].find? fun v => l.count v == 0 with _ | m
        · exact Or.inl rfl
        · dsimp only
          by_cases h4 : ∃ v ∈ l.dedup, l.count v = 2
          · rw [if_pos h4]
            exact Or.inr ⟨m, rfl⟩
          · rw [if_neg h4]
            exact Or.inl rfl

/-- The `possible` flag of `detectStraightAttempt` holds exactly on the
spec's condition. -/
lemma detectStraightAttempt_possible_iff (l : List Nat) :
    (detectStraightAttempt l).possible = true ↔ straightAttemptPred l := by
  unfold detectStraightAttempt straightAttemptPred
  by_cases h1 : l.length ≠ 6
  · rw [if_pos h1]
    exact iff_of_false (by decide) fun hcon => h1 hcon.1
  · rw [if_neg h1]
    push_neg at h1
    by_cases h2 : l.dedup.length ≠ 5
    · rw [if_pos h2]
      exact iff_of_false (by decide) fun hcon => h2 hcon.2.1
    · rw [if_neg h2]
      push_neg at h2
      by_cases h3 : ¬ (∀ v ∈ l.dedup, 1 ≤ v ∧ v ≤ 6)
      · rw [if_pos h3]
        exact iff_of_false (by decide) fun hcon =>
          h3 fun v hv => hcon.2.2.1 v (List.mem_dedup.mp hv)
      · rw [if_neg h3]
        push_neg at h3
        rcases hfd : [1, 2, 3, 4, 5, 6].find? fun v => l.count v == 0 with _ | m
        · refine iff_of_false Bool.false_ne_true fun _hcon => ?_
          have hnone := List.find?_eq_none.mp hfd
          have hsub : ({1, 2, 3, 4, 5, 6} : Finset Nat) ⊆ l.toFinset := by
            intro x hx
            have hx6 : x ∈ [1, 2, 3, 4, 5, 6] := by
              simp only [Finset.mem_insert, Finset.mem_singleton] at hx
              rcases hx with rfl | rfl | rfl | rfl | rfl | rfl <;> simp
            have hxcnt := hnone x hx6
            simp only [beq_iff_eq] at hxcnt
            exact List.mem_toFinset.mpr (List.count_pos_iff.mp (Nat.pos_of_ne_zero hxcnt))
          have hcard : (6 : Nat) ≤ l.toFinset.card := by
            calc (6 : Nat) = ({1, 2, 3, 4, 5, 6} : Finset Nat).card := by decide
            _ ≤ l.toFinset.card := Finset.card_le_card hsub
          rw [List.card_toFinset, h2] at hcard
          omega
        · dsimp only
          by_cases h4 : ∃ v ∈ l.dedup, l.count v = 2
          · rw [if_pos h4]
            refine iff_of_true rfl ?_
            exact ⟨h1, h2, fun v hv => h3 v (List.mem_dedup.mpr hv),
              pairsFilter_length_eq_one h1 h2⟩
          · rw [if_neg h4]
            refine iff_of_false Bool.false_ne_true fun hcon => ?_
            have hne : (l.dedup.filter fun v => l.count v == 2) ≠ [] := by
              intro hnil
              have hflt := hcon.2.2.2
              rw [hnil] at hflt
              simp at hflt
            obtain ⟨x, hx⟩ := List.exists_mem_of_ne_nil _ hne
            have hx2 := List.mem_filter.mp hx
            exact h4 ⟨x, hx2.1, by simpa using hx2.2⟩

/-- Under the spec's condition, `detectStraightAttempt` reports exactly the
(unique) absent in-range face value. -/
lemma detectStraightAttempt_missing (l : List Nat) (m : Nat) (hp : straightAttemptPred l)
    (hm1 : 1 ≤ m) (hm6 : m ≤ 6) (hml : m ∉ l) :
    detectStraightAttempt l = ⟨true, some m⟩ := by
  obtain ⟨h6, h5, hrange, hfilter⟩ := hp
  have hsub : l.toFinset ⊆ ({1, 2, 3, 4, 5, 6} : Finset Nat) := by
    intro x hx
    have := hrange x (List.mem_toFinset.mp hx)
    simp only [Finset.mem_insert, Finset.mem_singleton]
    omega
  have hcardl : l.toFinset.card = 5 := by
    rw [List.card_toFinset, h5]
  have hcards : (({1, 2, 3, 4, 5, 6} : Finset Nat) \ l.toFinset).card = 1 := by
    rw [Finset.card_sdiff hsub, hcardl]
    decide
  obtain ⟨a, ha⟩ := Finset.card_eq_one.mp hcards
  have hmem : ∀ x : Nat, 1 ≤ x → x ≤ 6 → x ∉ l → x = a := by
    intro x hx1 hx6 hxl
    have hxs : x ∈ ({1, 2, 3, 4, 5, 6} : Finset Nat) \ l.toFinset := by
      rw [Finset.mem_sdiff]
      constructor
      · simp only [Finset.mem_insert, Finset.mem_singleton]
        omega
      · intro hc
        exact hxl (List.mem_toFinset.mp hc)
    rw [ha] at hxs
    exact Finset.mem_singleton.mp hxs
  have hdup : ∃ v ∈ l.dedup, l.count v = 2 := by
    have hne : (l.dedup.filter fun v => l.count v == 2) ≠ [] := by
      intro hnil
      rw [hnil] at hfilter
      simp at hfilter
    obtain ⟨x, hx⟩ := List.exists_mem_of_ne_nil _ hne
    have hx2 := List.mem_filter.mp hx
    exact ⟨x, hx2.1, by simpa using hx2.2⟩
  unfold detectStraightAttempt
  rw [if_neg (by simpa using h6), if_neg (by simpa using h5),
    if_neg (by
      simp only [not_not]
      exact fun v hv => hrange v (List.mem_dedup.mp hv))]
  rcases hfd : [1, 2, 3, 4, 5, 6].find? fun v => l.count v == 0 with _ | mf
  · exfalso
    have hnone := List.find?_eq_none.mp hfd
    have hmem6 : m ∈ [1, 2, 3, 4, 5, 6] := by
      interval_cases m <;> simp
    have hmc := hnone m hmem6
    simp only [beq_iff_eq] at hmc
    exact hmc (List.count_eq_zero.mpr hml)
  · dsimp only
    rw [if_pos hdup]
    have hcnt : l.count mf = 0 := by
      have := List.find?_some hfd
      simpa using this
    have hmfl : mf ∉ l := List.count_eq_zero.mp hcnt
    have hmf6 : mf ∈ [1, 2, 3, 4, 5, 6] := List.mem_of_find?_eq_some hfd
    have hmfrange : 1 ≤ mf ∧ mf ≤ 6 := by
      simp only [List.mem_cons, List.not_mem_nil, or_false] at hmf6
      rcases hmf6 with rfl | rfl | rfl | rfl | rfl | rfl <;> exact ⟨by omega, by omega⟩
    rw [hmem mf hmfrange.1 hmfrange.2 hmfl, hmem m hm1 hm6 hml]

/-- Claim C5: `detectStraightAttempt` returns `possible = true` with the
unique missing face exactly when 6 dice show exactly 5 distinct in-range
values with exactly one value duplicated; every other input yields
`⟨false, none⟩`; and the quoted examples hold. -/
theorem detectStraightAttempt_matches_spec :
    (∀ l : List Nat, ((detectStraightAttempt l).possible = true ↔ straightAttemptPred l)) ∧
    (∀ (l : List Nat) (m : Nat), straightAttemptPred l → 1 ≤ m → m ≤ 6 → m ∉ l →
      detectStraightAttempt l = ⟨true, some m⟩) ∧
    (∀ l : List Nat, ¬ straightAttemptPred l → detectStraightAttempt l = ⟨false, none⟩) ∧
    detectStraightAttempt [1, 2, 3, 4, 5, 5] = ⟨true, some 6⟩ ∧
    detectStraightAttempt [1, 1, 2, 3, 4, 5] = ⟨true, some 6⟩ ∧
    detectStraightAttempt [1, 1, 1, 2, 3, 4] = ⟨false, none⟩ := by
  refine ⟨detectStraightAttempt_possible_iff, detectStraightAttempt_missing, ?_,
    by decide, by decide, by decide⟩
  intro l hnp
  rcases detectStraightAttempt_shape l with h | ⟨m, hm⟩
  · exact h
  · exfalso
    apply hnp
    apply (detectStraightAttempt_possible_iff l).mp
    rw [hm]

/-- Witness for claim C5 at a concrete roll (missing face 6). -/
theorem detectStraightAttempt_matches_spec_witness :
    detectStraightAttempt [1, 2, 3, 4, 5, 5] = ⟨true, some 6⟩ :=
  detectStraightAttempt_matches_spec.2.1 [1, 2, 3, 4, 5, 5] 6 (by decide) (by decide)
    (by decide) (by decide)

/-- A Yahtzee player who has already scored one Yahtzee (the `yahtzee`
category holds 50 and the bonus counter is 1). -/
def pYahtzeeEx : Yahtzee.YPlayer :=
  { name := "A", scores := [(Yahtzee.CatId.yahtzee, 50)], yahtzees := 1 }

/-- The invariant maintained by `_selectCategory`: the Yahtzee counter never
exceeds 1, and it is positive only once the `yahtzee` category is filled. -/
def yahtzeeInv (p : Yahtzee.YPlayer) : Prop :=
  p.yahtzees ≤ 1 ∧
    (1 ≤ p.yahtzees → (p.scores.lookup Yahtzee.CatId.yahtzee).isSome = true)

/-- Claim C9 (code bug): rolling a second Yahtzee (e.g. five 3s, worth 50 in
the `yahtzee` category) and selecting the `yahtzee` category is rejected as a
no-op because the category is already filled — and that rejected selection is
the *only* code path that increments the `yahtzees` counter, so the counter
never exceeds 1 and the `(yahtzees − 1) · 100` bonus of `calculateTotal` is
always 0.  The claimed 100-point award (also stated by the in-game rules
text) is unreachable. -/
theorem second_yahtzee_bonus_unreachable :
    Yahtzee.yahtzeeCheck [3, 3, 3, 3, 3] = 50 ∧
    Yahtzee.selectCategory pYahtzeeEx Yahtzee.CatId.yahtzee [3, 3, 3, 3, 3] = pYahtzeeEx ∧
    (∀ (p : Yahtzee.YPlayer) (c : Yahtzee.CatId) (d : List Nat),
      yahtzeeInv p → yahtzeeInv (Yahtzee.selectCategory p c d)) ∧
    (∀ p : Yahtzee.YPlayer, p.yahtzees ≤ 1 → Yahtzee.yahtzeeBonus p = 0) := by
  refine ⟨by decide, by decide, ?_, ?_⟩
  · intro p c d hp
    unfold Yahtzee.selectCategory
    cases hfind : Yahtzee.categories.find? fun cat => cat.id == c with
    | none => exact hp
    | some cat =>
        dsimp only
        by_cases hfilled : (p.scores.lookup c).isSome = true
        · rw [if_pos hfilled]
          exact hp
        · rw [if_neg hfilled]
          by_cases hyz : c = Yahtzee.CatId.yahtzee ∧ cat.calcScore d = 50
          · rw [if_pos hyz]
            have hz : p.yahtzees = 0 := by
              by_contra hnz
              exact hfilled (by rw [hyz.1]; exact hp.2 (by omega))
            constructor
            · show p.yahtzees + 1 ≤ 1
              omega
            · intro _
              show (((c, _) :: p.scores).lookup Yahtzee.CatId.yahtzee).isSome = true
              rw [hyz.1]
              simp [List.lookup]
          · rw [if_neg hyz]
            constructor
            · exact hp.1
            · intro hy
              show (((c, _) :: p.scores).lookup Yahtzee.CatId.yahtzee).isSome = true
              by_cases hc : c = Yahtzee.CatId.yahtzee
              · rw [hc]
                simp [List.lookup]
              · have : (Yahtzee.CatId.yahtzee == c) = false := by
                  simp [BEq.beq]
                  exact fun h => hc h.symm
                simp only [List.lookup, this]
                exact hp.2 hy
  · intro p h
    unfold Yahtzee.yahtzeeBonus
    rw [if_neg (by omega)]

/-- Witness for claim C9's invariant consequence at a fresh player. -/
theorem second_yahtzee_bonus_unreachable_witness :
    Yahtzee.yahtzeeBonus { name := "B", scores := [], yahtzees := 0 } = 0 :=
  second_yahtzee_bonus_unreachable.2.2.2 { name := "B", scores := [], yahtzees := 0 }
    (by decide)

/-! ### Final-round machinery for claim C6 -/

/-- Running maximum (as an integer, to track `_endGame`'s `-1` seed) of the
players' total scores. -/
def maxScoreFold (l : List Farkle.Player) (m : Int) : Int :=
  l.foldl (fun acc p => max acc (p.totalScore : Int)) m

lemma maxScoreFold_nil (m : Int) : maxScoreFold [] m = m := rfl

lemma maxScoreFold_cons (q : Farkle.Player) (l : List Farkle.Player) (m : Int) :
    maxScoreFold (q :: l) m = maxScoreFold l (max m (q.totalScore : Int)) := rfl

lemma le_maxScoreFold (l : List Farkle.Player) (m : Int) : m ≤ maxScoreFold l m := by
  induction l generalizing m with
  | nil => exact le_refl m
  | cons q l ih =>
      rw [maxScoreFold_cons]
      exact le_trans (le_max_left _ _) (ih _)

lemma maxScoreFold_ge (l : List Farkle.Player) (m : Int) :
    ∀ q ∈ l, (q.totalScore : Int) ≤ maxScoreFold l m := by
  induction l generalizing m with
  | nil => intro q hq; simp at hq
  | cons a l ih =>
      intro q hq
      rw [maxScoreFold_cons]
      rcases List.mem_cons.mp hq with rfl | hq
      · exact le_trans (le_max_right _ _) (le_maxScoreFold _ _)
      · exact ih _ q hq

lemma maxScoreFold_attained (l : List Farkle.Player) (m : Int) :
    maxScoreFold l m = m ∨ ∃ q ∈ l, maxScoreFold l m = (q.totalScore : Int) := by
  induction l generalizing m with
  | nil => exact Or.inl rfl
  | cons a l ih =>
      rw [maxScoreFold_cons]
      rcases ih (max m (a.totalScore : Int)) with h | ⟨q, hq, h⟩
      · rcases max_cases m (a.totalScore : Int) with ⟨he, _⟩ | ⟨he, _⟩
        · exact Or.inl (by rw [h, he])
        · exact Or.inr ⟨a, List.mem_cons_self a l, by rw [h, he]⟩
      · exact Or.inr ⟨q, List.mem_cons_of_mem a hq, h⟩

/-- Invariant characterisation of the `_endGame` winners fold: the first
component tracks the running maximum, the second the players attaining it. -/
lemma foldl_winnersStep_spec (l : List Farkle.Player) :
    ∀ (m : Int) (ws : List Farkle.Player), (∀ w ∈ ws, (w.totalScore : Int) = m) →
      (l.foldl Farkle.winnersStep (m, ws)).1 = maxScoreFold l m ∧
      (∀ p, p ∈ (l.foldl Farkle.winnersStep (m, ws)).2 ↔
        ((p ∈ ws ∧ m = maxScoreFold l m) ∨
          (p ∈ l ∧ (p.totalScore : Int) = maxScoreFold l m))) := by
  induction l with
  | nil =>
      intro m ws hws
      refine ⟨rfl, fun p => ?_⟩
      rw [maxScoreFold_nil]
      simp
  | cons a l ih =>
      intro m ws hws
      rw [List.foldl_cons, maxScoreFold_cons]
      by_cases h1 : m < (a.totalScore : Int)
      · have hstep : Farkle.winnersStep (m, ws) a = ((a.totalScore : Int), [a]) := by
          simp [Farkle.winnersStep, h1]
        rw [hstep]
        have hmax : max m (a.totalScore : Int) = (a.totalScore : Int) :=
          max_eq_right (le_of_lt h1)
        obtain ⟨hfst, hsnd⟩ := ih (a.totalScore : Int) [a] (by simp)
        rw [hmax]
        refine ⟨hfst, fun p => ?_⟩
        rw [hsnd p]
        have hlt : m < maxScoreFold l (a.totalScore : Int) :=
          lt_of_lt_of_le h1 (le_maxScoreFold _ _)
        constructor
        · rintro (⟨hpa, hpe⟩ | ⟨hpl, hpe⟩)
          · rcases List.mem_singleton.mp hpa with rfl
            exact Or.inr ⟨List.mem_cons_self _ _, hpe⟩
          · exact Or.inr ⟨List.mem_cons_of_mem _ hpl, hpe⟩
        · rintro (⟨_, hpe⟩ | ⟨hpl, hpe⟩)
          · omega
          · rcases List.mem_cons.mp hpl with rfl | hpl
            · exact Or.inl ⟨List.mem_singleton_self _, hpe⟩
            · exact Or.inr ⟨hpl, hpe⟩
      · by_cases h2 : (a.totalScore : Int) = m
        · have hstep : Farkle.winnersStep (m, ws) a = (m, ws ++ [a]) := by
            simp [Farkle.winnersStep, h1, h2]
          rw [hstep]
          have hmax : max m (a.totalScore : Int) = m := max_eq_left (le_of_eq h2)
          obtain ⟨hfst, hsnd⟩ := ih m (ws ++ [a]) (by
            intro w hw
            rcases List.mem_append.mp hw with hw | hw
            · exact hws w hw
            · rcases List.mem_singleton.mp hw with rfl
              exact h2)
          rw [hmax]
          refine ⟨hfst, fun p => ?_⟩
          rw [hsnd p]
          constructor
          · rintro (⟨hpa, hpe⟩ | ⟨hpl, hpe⟩)
            · rcases List.mem_append.mp hpa with hpw | hpa
              · exact Or.inl ⟨hpw, hpe⟩
              · rcases List.mem_singleton.mp hpa with rfl
                exact Or.inr ⟨List.mem_cons_self _ _, by omega⟩
            · exact Or.inr ⟨List.mem_cons_of_mem _ hpl, hpe⟩
          · rintro (⟨hpw, hpe⟩ | ⟨hpl, hpe⟩)
            · exact Or.inl ⟨List.mem_append_left _ hpw, hpe⟩
            · rcases List.mem_cons.mp hpl with rfl | hpl
              · exact Or.inl ⟨List.mem_append_right _ (List.mem_singleton_self _),
                  by omega⟩
              · exact Or.inr ⟨hpl, hpe⟩
        · have hstep : Farkle.winnersStep (m, ws) a = (m, ws) := by
            simp [Farkle.winnersStep, h1, h2]
          rw [hstep]
          have hmax : max m (a.totalScore : Int) = m := by
            rcases lt_trichotomy m (a.totalScore : Int) with h | h | h
            · exact absurd h h1
            · exact absurd h.symm h2
            · exact max_eq_left (le_of_lt h)
          obtain ⟨hfst, hsnd⟩ := ih m ws hws
          rw [hmax]
          refine ⟨hfst, fun p => ?_⟩
          rw [hsnd p]
          have hlt : (a.totalScore : Int) < maxScoreFold l m := by
            rcases lt_trichotomy m (a.totalScore : Int) with h | h | h
            · exact absurd h h1
            · exact absurd h.symm h2
            · exact lt_of_lt_of_le h (le_maxScoreFold _ _)
          constructor
          · rintro (⟨hpw, hpe⟩ | ⟨hpl, hpe⟩)
            · exact Or.inl ⟨hpw, hpe⟩
            · exact Or.inr ⟨List.mem_cons_of_mem _ hpl, hpe⟩
          · rintro (⟨hpw, hpe⟩ | ⟨hpl, hpe⟩)
            · exact Or.inl ⟨hpw, hpe⟩
            · rcases List.mem_cons.mp hpl with rfl | hpl
              · omega
              · exact Or.inr ⟨hpl, hpe⟩

/-- `_endGame` computes exactly the players of maximal total score. -/
lemma endGameWinners_spec (ps : List Farkle.Player) (_hne : ps ≠ []) (p : Farkle.Player) :
    p ∈ endGameWinners ps ↔ p ∈ ps ∧ ∀ q ∈ ps, q.totalScore ≤ p.totalScore := by
  obtain ⟨_hfst, hsnd⟩ := foldl_winnersStep_spec ps (-1) [] (by simp)
  unfold Farkle.endGameWinners
  rw [hsnd p]
  constructor
  · rintro (⟨hp, _⟩ | ⟨hp, hpe⟩)
    · simp at hp
    · refine ⟨hp, fun q hq => ?_⟩
      have := maxScoreFold_ge ps (-1) q hq
      rw [← hpe] at this
      exact_mod_cast this
  · rintro ⟨hp, hmax⟩
    refine Or.inr ⟨hp, le_antisymm ?_ ?_⟩
    · exact maxScoreFold_ge ps (-1) p hp
    · rcases maxScoreFold_attained ps (-1) with h | ⟨q, hq, h⟩
      · have := le_maxScoreFold ps (-1)
        have hge := maxScoreFold_ge ps (-1) p hp
        omega
      · rw [h]
        exact_mod_cast hmax q hq

lemma mod_add_cancel_inj {n t j j' : Nat} (hj : j < n) (hj' : j' < n)
    (h : (t + j) % n = (t + j') % n) : j = j' := by
  have h1 : j ≡ j' [MOD n] := Nat.ModEq.add_left_cancel' t h
  have h2 : j % n = j' % n := h1
  rwa [Nat.mod_eq_of_lt hj, Nat.mod_eq_of_lt hj'] at h2

lemma mod_shift_ne_self {n t c : Nat} (ht : t < n) (hc1 : 1 ≤ c) (hcn : c < n) :
    (t + c) % n ≠ t := by
  intro h
  have h0 : (t + c) % n = (t + 0) % n := by
    rw [h, Nat.add_zero, Nat.mod_eq_of_lt ht]
  have := mod_add_cancel_inj hcn (Nat.lt_of_lt_of_le (Nat.zero_lt_of_lt hcn) (le_refl n)) h0
  omega

lemma mod_shift_surj {n t i : Nat} (ht : t < n) (hi : i < n) :
    ∃ j < n, (t + j) % n = i := by
  refine ⟨(n + i - t) % n, Nat.mod_lt _ (by omega), ?_⟩
  rw [Nat.add_mod_mod]
  have h2 : t + (n + i - t) = n + i := by omega
  rw [h2, Nat.add_mod_left, Nat.mod_eq_of_lt hi]

/-- The final-round loop invariant: the trigger player `t` has banked, `k + 1`
players (the trigger plus `k` others, consecutive from `t` in cyclic order)
are recorded in `playersHadFinalTurn`, and it is now the turn of player
`(t + k + 1) % n`. -/
def FinalInv (t k : Nat) (g : Farkle.GameState) : Prop :=
  g.finalRound = true ∧
  g.finalRoundTriggerPlayer = (t : Int) ∧
  t < g.players.length ∧
  k + 2 ≤ g.players.length ∧
  g.currentPlayerIndex = (t + k + 1) % g.players.length ∧
  g.playersHadFinalTurn =
    (Finset.range (k + 1)).image fun j => (t + j) % g.players.length

/-- The final-round `allDone` check succeeds exactly once the cyclic block of
turns starting at the trigger covers the whole table. -/
lemma allDoneP_insert_iff {t k : Nat} {g : Farkle.GameState} (h : FinalInv t k g) :
    (Farkle.allDoneP
        { g with playersHadFinalTurn :=
            insert g.currentPlayerIndex g.playersHadFinalTurn } ↔
      g.players.length ≤ k + 2) := by
  obtain ⟨hfr, htr, ht, hk, hcur, hhad⟩ := h
  have himg : insert g.currentPlayerIndex g.playersHadFinalTurn =
      (Finset.range (k + 2)).image fun j => (t + j) % g.players.length := by
    rw [hcur, hhad]
    conv_rhs => rw [Finset.range_succ, Finset.image_insert]
    exact rfl
  unfold Farkle.allDoneP
  dsimp only
  rw [himg, htr]
  constructor
  · intro hall
    by_contra hlt
    push_neg at hlt
    have hi : (t + (k + 2)) % g.players.length < g.players.length :=
      Nat.mod_lt _ (by omega)
    rcases hall _ hi with hti | himem
    · have hti' : (t + (k + 2)) % g.players.length = t := by exact_mod_cast hti
      exact mod_shift_ne_self ht (by omega) (by omega) hti'
    · obtain ⟨j, hj, hje⟩ := Finset.mem_image.mp himem
      have hjr := Finset.mem_range.mp hj
      have := mod_add_cancel_inj (by omega : j < g.players.length) (by omega) hje
      omega
  · intro hle i hi
    right
    obtain ⟨j, hjn, hje⟩ := mod_shift_surj ht hi
    exact Finset.mem_image.mpr ⟨j, Finset.mem_range.mpr (by omega), hje⟩

/-- One `_nextPlayer` call from a final-round invariant state: it ends the
game exactly when the current player was the last one out, otherwise it
moves to the next player (never the trigger) and preserves the invariant. -/
lemma nextPlayer_step {t k : Nat} {g : Farkle.GameState} (h : FinalInv t k g) :
    (k + 2 = g.players.length →
      Farkle.nextPlayer g = Farkle.NextResult.ended (Farkle.endGameWinners g.players)) ∧
    (k + 2 < g.players.length →
      ∃ g2, Farkle.nextPlayer g = Farkle.NextResult.cont g2 ∧ FinalInv t (k + 1) g2 ∧
        g2.players = g.players) := by
  obtain ⟨hfr, htr, ht, hk, hcur, hhad⟩ := h
  have hAll := allDoneP_insert_iff ⟨hfr, htr, ht, hk, hcur, hhad⟩
  constructor
  · intro heq
    unfold Farkle.nextPlayer
    dsimp only
    rw [if_pos hfr, if_pos ⟨hfr, hAll.mpr (by omega)⟩]
  · intro hlt
    unfold Farkle.nextPlayer
    dsimp only
    rw [if_pos hfr]
    rw [if_neg (fun hc => absurd (hAll.mp hc.2) (by omega))]
    have hcur2 : (g.currentPlayerIndex + 1) % g.players.length =
        (t + (k + 2)) % g.players.length := by
      rw [hcur, Nat.mod_add_mod]
      exact rfl
    have hne2 : (g.currentPlayerIndex + 1) % g.players.length ≠ t := by
      rw [hcur2]
      exact mod_shift_ne_self ht (by omega) (by omega)
    rw [if_neg (fun hc => hne2 (by rw [htr] at hc; exact_mod_cast hc.2))]
    refine ⟨_, rfl, ?_, rfl⟩
    refine ⟨hfr, htr, ht, ?_, ?_, ?_⟩
    · show k + 1 + 2 ≤ g.players.length
      omega
    · show (g.currentPlayerIndex + 1) % g.players.length =
        (t + (k + 1) + 1) % g.players.length
      rw [hcur2]
      exact rfl
    · show insert g.currentPlayerIndex g.playersHadFinalTurn =
        (Finset.range (k + 1 + 1)).image fun j => (t + j) % g.players.length
      rw [hcur, hhad]
      conv_rhs => rw [Finset.range_succ, Finset.image_insert]
      exact rfl

lemma finalInv_set_players {t k : Nat} {g : Farkle.GameState} (h : FinalInv t k g)
    (i : Nat) (p : Farkle.Player) :
    FinalInv t k { g with players := g.players.set i p } := by
  obtain ⟨h1, h2, h3, h4, h5, h6⟩ := h
  refine ⟨h1, h2, ?_, ?_, ?_, ?_⟩ <;> simp only [List.length_set]
  · exact h3
  · exact h4
  · exact h5
  · exact h6

lemma bankCore_players_length (g : Farkle.GameState) :
    (Farkle.bankCore g).players.length = g.players.length := by
  unfold Farkle.bankCore
  dsimp only
  split_ifs <;> simp [List.length_set]

/-- One whole final-round turn (bank or bust) from an invariant state. -/
lemma endTurn_step {t k : Nat} {g : Farkle.GameState} (h : FinalInv t k g)
    (o : Farkle.TurnOutcome) :
    (k + 2 = g.players.length →
      ∃ w, Farkle.endTurn g o = Farkle.NextResult.ended w) ∧
    (k + 2 < g.players.length →
      ∃ g2, Farkle.endTurn g o = Farkle.NextResult.cont g2 ∧ FinalInv t (k + 1) g2 ∧
        g2.players.length = g.players.length) := by
  cases o with
  | banked ts =>
      have hfr := h.1
      have hgg : FinalInv t k
          { g with turnState := Farkle.TState.confirmed, turnScore := ts } := by
        obtain ⟨h1, h2, h3, h4, h5, h6⟩ := h
        exact ⟨h1, h2, h3, h4, h5, h6⟩
      have hinv2 : FinalInv t k (Farkle.bankCore
          { g with turnState := Farkle.TState.confirmed, turnScore := ts }) := by
        unfold Farkle.bankCore
        dsimp only
        rw [if_neg (fun hc => by rw [hfr] at hc; exact absurd hc.2 (by simp))]
        exact finalInv_set_players hgg _ _
      have heq : Farkle.endTurn g (Farkle.TurnOutcome.banked ts) =
          Farkle.nextPlayer (Farkle.bankCore
            { g with turnState := Farkle.TState.confirmed, turnScore := ts }) := by
        unfold Farkle.endTurn Farkle.bank
        dsimp only
        rw [if_neg (fun hne => hne rfl)]
      have hlen : (Farkle.bankCore
          { g with turnState := Farkle.TState.confirmed, turnScore := ts }).players.length =
          g.players.length :=
        bankCore_players_length _
      obtain ⟨hstop, hcont⟩ := nextPlayer_step hinv2
      constructor
      · intro hkn
        exact ⟨_, by rw [heq]; exact hstop (by rw [hlen]; exact hkn)⟩
      · intro hkn
        obtain ⟨g2, hg2, hinv3, hpl⟩ := hcont (by rw [hlen]; exact hkn)
        exact ⟨g2, by rw [heq, hg2], hinv3, by rw [hpl, hlen]⟩
  | busted =>
      have hinv2 : FinalInv t k (Farkle.handleFarkle g) := by
        obtain ⟨h1, h2, h3, h4, h5, h6⟩ := h
        exact ⟨h1, h2, h3, h4, h5, h6⟩
      have heq : Farkle.endTurn g Farkle.TurnOutcome.busted =
          Farkle.nextPlayer (Farkle.handleFarkle g) := rfl
      obtain ⟨hstop, hcont⟩ := nextPlayer_step hinv2
      constructor
      · intro hkn
        exact ⟨_, by rw [heq, hstop (by exact hkn)]⟩
      · intro hkn
        obtain ⟨g2, hg2, hinv3, hpl⟩ := hcont (by exact hkn)
        exact ⟨g2, by rw [heq, hg2], hinv3, by rw [hpl]; exact rfl⟩

/-- `_nextPlayer` right after the trigger player banked: the game goes on
(with at least two players) and the final-round invariant is established with
`k = 0`. -/
lemma nextPlayer_establishes {g : Farkle.GameState}
    (hn : 2 ≤ g.players.length) (hfr : g.finalRound = true)
    (htr : g.finalRoundTriggerPlayer = (g.currentPlayerIndex : Int))
    (hcur : g.currentPlayerIndex < g.players.length)
    (hhad : g.playersHadFinalTurn = ∅) :
    ∃ g1, Farkle.nextPlayer g = Farkle.NextResult.cont g1 ∧
      FinalInv g.currentPlayerIndex 0 g1 ∧ g1.players = g.players := by
  have hne1 : (g.currentPlayerIndex + 1) % g.players.length ≠ g.currentPlayerIndex :=
    mod_shift_ne_self hcur (le_refl 1) (by omega)
  have hnotall : ¬ Farkle.allDoneP
      { g with playersHadFinalTurn :=
          insert g.currentPlayerIndex g.playersHadFinalTurn } := by
    intro hall
    have hi : (g.currentPlayerIndex + 1) % g.players.length < g.players.length :=
      Nat.mod_lt _ (by omega)
    rcases hall _ hi with hti | hmem
    · exact hne1 (by rw [htr] at hti; exact_mod_cast hti)
    · rw [hhad] at hmem
      rcases Finset.mem_insert.mp hmem with he | he
      · exact hne1 he
      · simp at he
  unfold Farkle.nextPlayer
  dsimp only
  rw [if_pos hfr]
  rw [if_neg (fun hc => hnotall hc.2)]
  rw [if_neg (fun hc => hne1 (by rw [htr] at hc; exact_mod_cast hc.2))]
  refine ⟨_, rfl, ?_, rfl⟩
  refine ⟨hfr, htr, hcur, ?_, ?_, ?_⟩
  · show 0 + 2 ≤ g.players.length
    omega
  · show (g.currentPlayerIndex + 1) % g.players.length =
      (g.currentPlayerIndex + 0 + 1) % g.players.length
    exact rfl
  · show insert g.currentPlayerIndex g.playersHadFinalTurn =
      (Finset.range (0 + 1)).image fun j => (g.currentPlayerIndex + j) % g.players.length
    rw [hhad]
    simp [Finset.range_one, Nat.mod_eq_of_lt hcur]

/-- The final-round run from an invariant state: shorter runs than the
remaining player count leave the game going, with the next players taking
turns in cyclic order; once the remaining players have all had their turn the
game ends. -/
lemma finalRound_run {t : Nat} :
    ∀ (os : List Farkle.TurnOutcome) (k : Nat) (g : Farkle.GameState), FinalInv t k g →
      (os.length + k + 2 ≤ g.players.length →
        Farkle.runWinners g os = none ∧
        Farkle.turnTakers g os =
          (List.range os.length).map fun j => (t + k + 1 + j) % g.players.length) ∧
      (g.players.length ≤ os.length + k + 1 →
        (∃ w, Farkle.runWinners g os = some w) ∧
        Farkle.turnTakers g os =
          (List.range (g.players.length - (k + 1))).map
            fun j => (t + k + 1 + j) % g.players.length) := by
  intro os
  induction os with
  | nil =>
      intro k g h
      obtain ⟨_, _, _, hk, _, _⟩ := h
      constructor
      · intro _
        exact ⟨rfl, by simp [Farkle.turnTakers]⟩
      · intro hle
        simp at hle
        omega
  | cons o os ih =>
      intro k g h
      have hk := h.2.2.2.1
      have hcur := h.2.2.2.2.1
      obtain ⟨hstop, hcont⟩ := endTurn_step h o
      rcases Nat.eq_or_lt_of_le hk with heq | hlt
      · -- last remaining player: the game ends after this turn
        obtain ⟨w, hw⟩ := hstop heq
        constructor
        · intro hlen
          simp only [List.length_cons] at hlen
          omega
        · intro _
          refine ⟨⟨w, ?_⟩, ?_⟩
          · unfold Farkle.runWinners
            rw [hw]
          · unfold Farkle.turnTakers
            rw [hw]
            have hr : g.players.length - (k + 1) = 1 := by omega
            rw [hr]
            have hr1 : List.range 1 = [0] := rfl
            rw [hr1, List.map_cons, List.map_nil, hcur]
      · -- more players to go
        obtain ⟨g2, hg2, hinv2, hlen2⟩ := hcont hlt
        obtain ⟨ihshort, ihlong⟩ := ih (k + 1) g2 hinv2
        constructor
        · intro hlen
          simp only [List.length_cons] at hlen
          obtain ⟨hnone, htak⟩ := ihshort (by omega)
          refine ⟨?_, ?_⟩
          · unfold Farkle.runWinners
            rw [hg2]
            exact hnone
          · unfold Farkle.turnTakers
            rw [hg2]
            dsimp only
            rw [htak, hlen2]
            simp only [List.length_cons]
            rw [List.range_succ_eq_map, List.map_cons, List.map_map]
            rw [hcur]
            congr 1
            apply List.map_congr_left
            intro j _
            show (t + (k + 1) + 1 + j) % g.players.length =
              (t + k + 1 + (j + 1)) % g.players.length
            congr 1
            omega
        · intro hlen
          simp only [List.length_cons] at hlen
          obtain ⟨⟨w, hsome⟩, htak⟩ := ihlong (by omega)
          refine ⟨⟨w, ?_⟩, ?_⟩
          · unfold Farkle.runWinners
            rw [hg2]
            exact hsome
          · unfold Farkle.turnTakers
            rw [hg2]
            dsimp only
            rw [htak, hlen2]
            have hr : g.players.length - (k + 1) = (g.players.length - (k + 2)) + 1 := by
              omega
            rw [hr, List.range_succ_eq_map, List.map_cons, List.map_map]
            rw [hcur]
            congr 1
            apply List.map_congr_left
            intro j _
            show (t + (k + 1) + 1 + j) % g.players.length =
              (t + k + 1 + (j + 1)) % g.players.length
            congr 1
            omega

lemma takers_nodup {n t r : Nat} (hr : r ≤ n) :
    ((List.range r).map fun j => (t + j) % n).Nodup := by
  refine List.Nodup.map_on ?_ (List.nodup_range r)
  intro x hx y hy hxy
  have hxr := List.mem_range.mp hx
  have hyr := List.mem_range.mp hy
  exact mod_add_cancel_inj (by omega) (by omega) hxy

lemma takers_mem_iff {n t : Nat} (ht : t < n) :
    ∀ i, (i ∈ (List.range (n - 1)).map fun j => (t + 1 + j) % n) ↔ (i < n ∧ i ≠ t) := by
  intro i
  constructor
  · intro hi
    obtain ⟨j, hj, rfl⟩ := List.mem_map.mp hi
    have hjr := List.mem_range.mp hj
    have hn0 : 0 < n := by omega
    refine ⟨Nat.mod_lt _ hn0, ?_⟩
    have hassoc : t + 1 + j = t + (1 + j) := by omega
    rw [hassoc]
    exact mod_shift_ne_self ht (by omega) (by omega)
  · rintro ⟨hi, hne⟩
    obtain ⟨j, hjn, hje⟩ := mod_shift_surj ht hi
    have hj1 : 1 ≤ j := by
      by_contra h0
      push_neg at h0
      interval_cases j
      rw [Nat.add_zero, Nat.mod_eq_of_lt ht] at hje
      exact hne hje.symm
    refine List.mem_map.mpr ⟨j - 1, List.mem_range.mpr (by omega), ?_⟩
    have hassoc : t + 1 + (j - 1) = t + j := by omega
    rw [hassoc, hje]

/-- Claim C6: the Farkle match controller's final-round protocol.
(1) Banking that first reaches 10000 with no final round active sets
`finalRound` with the banker as trigger; (2) a later bank never re-triggers;
(3) from the trigger's bank on, the game continues while some non-trigger
player still lacks their extra turn (each interim turn taker distinct and
never the trigger) and ends exactly once every non-trigger player has had
one more turn — those turn takers being exactly the non-trigger players,
each exactly once; (4) the winners are exactly the players of maximal total
score (ties give multiple winners). -/
theorem farkle_final_round_flow :
    (∀ g : Farkle.GameState,
      g.finalRound = false →
      Farkle.TARGET_SCORE ≤
        (g.players.getD g.currentPlayerIndex default).totalScore + g.turnScore →
      (Farkle.bankCore g).finalRound = true ∧
      (Farkle.bankCore g).finalRoundTriggerPlayer = (g.currentPlayerIndex : Int)) ∧
    (∀ g : Farkle.GameState,
      g.finalRound = true →
      (Farkle.bankCore g).finalRound = true ∧
      (Farkle.bankCore g).finalRoundTriggerPlayer = g.finalRoundTriggerPlayer) ∧
    (∀ (g : Farkle.GameState) (os : List Farkle.TurnOutcome),
      2 ≤ g.players.length →
      g.finalRound = true →
      g.finalRoundTriggerPlayer = (g.currentPlayerIndex : Int) →
      g.currentPlayerIndex < g.players.length →
      g.playersHadFinalTurn = ∅ →
      ∃ g1, Farkle.nextPlayer g = Farkle.NextResult.cont g1 ∧
        (os.length + 2 ≤ g.players.length →
          Farkle.runWinners g1 os = none ∧
          (Farkle.turnTakers g1 os).Nodup ∧
          g.currentPlayerIndex ∉ Farkle.turnTakers g1 os) ∧
        (g.players.length ≤ os.length + 1 →
          (∃ w, Farkle.runWinners g1 os = some w) ∧
          (Farkle.turnTakers g1 os).Nodup ∧
          (∀ i, i ∈ Farkle.turnTakers g1 os ↔
            (i < g.players.length ∧ i ≠ g.currentPlayerIndex)))) ∧
    (∀ ps : List Farkle.Player, ps ≠ [] → ∀ p,
      (p ∈ Farkle.endGameWinners ps ↔
        p ∈ ps ∧ ∀ q ∈ ps, q.totalScore ≤ p.totalScore)) := by
  refine ⟨?_, ?_, ?_, endGameWinners_spec⟩
  · intro g hfr htotal
    unfold Farkle.bankCore
    dsimp only
    rw [if_pos ⟨htotal, hfr⟩]
    exact ⟨rfl, rfl⟩
  · intro g hfr
    unfold Farkle.bankCore
    dsimp only
    rw [if_neg (fun hc => by rw [hfr] at hc; exact absurd hc.2 (by simp))]
    exact ⟨hfr, rfl⟩
  · intro g os hn hfr htr hcur hhad
    obtain ⟨g1, hg1, hinv, hpl⟩ := nextPlayer_establishes hn hfr htr hcur hhad
    have hlen : g1.players.length = g.players.length := by rw [hpl]
    obtain ⟨hshort, hlong⟩ := finalRound_run os 0 g1 hinv
    refine ⟨g1, hg1, ?_, ?_⟩
    · intro hos
      obtain ⟨hnone, htak⟩ := hshort (by omega)
      refine ⟨hnone, ?_, ?_⟩
      · rw [htak, hlen]
        exact takers_nodup (by omega)
      · rw [htak, hlen]
        intro hmem
        obtain ⟨j, hj, hje⟩ := List.mem_map.mp hmem
        have hjr := List.mem_range.mp hj
        have hassoc : g.currentPlayerIndex + 0 + 1 + j =
            g.currentPlayerIndex + (1 + j) := by omega
        rw [hassoc] at hje
        exact mod_shift_ne_self hcur (by omega) (by omega) hje
    · intro hos
      obtain ⟨hw, htak⟩ := hlong (by omega)
      refine ⟨hw, ?_, ?_⟩
      · rw [htak, hlen]
        exact takers_nodup (by omega)
      · intro i
        rw [htak, hlen]
        exact takers_mem_iff hcur i

/-- A two-player state about to bank 600 points onto 9500 (crossing the
10000 target) with no final round active. -/
def gBankEx : Farkle.GameState :=
  { players := [{ name := "A", color := "red", totalScore := 9500 },
                { name := "B", color := "blue", totalScore := 0 }],
    currentPlayerIndex := 0,
    turnScore := 600,
    rollCount := 2,
    setAsideDice := {0, 1},
    selectedDice := ∅,
    turnState := Farkle.TState.confirmed,
    straightAttemptData := none,
    finalRound := false,
    finalRoundTriggerPlayer := -1,
    playersHadFinalTurn := ∅,
    dice :=
      { values := [5, 5, 1, 1, 1, 1], held := [true, true, false, false, false, false],
        rollsLeft := 0, hasRolled := true, isRolling := false } }

/-- Witness for claim C6 at the concrete two-player trigger bank. -/
theorem farkle_final_round_flow_witness :
    (Farkle.bankCore gBankEx).finalRound = true ∧
    (Farkle.bankCore gBankEx).finalRoundTriggerPlayer = (gBankEx.currentPlayerIndex : Int) :=
  farkle_final_round_flow.1 gBankEx rfl (by decide)
